import Mathlib

/-!
Verification of the clinical-note structure normalizer and document renderer
of the Medscribe backend (`backend/app/services/pdf_service.py`).

Strings are modelled as `List Char` (Python `str`).  Python's whitespace set
(`str.strip`, regex `\s` in unicode mode) is modelled by `pws`; regex splits
are modelled by explicit leftmost scanners that mirror the backtracking
behaviour of the concrete patterns used in the source
(`\s*-\s+|\s*\.\s*-\s*`, `\s*##\s+`, `\s+`, `\s*\[\s*\]\s*`,
`\[[^\]]*[஀-௿][^\]]*\]`).  Scanners that jump over a matched span
are written with an explicit fuel argument (initialised to the string length)
so that every definition is structurally recursive and kernel-evaluable.
-/

namespace Medscribe

/-- Python's unicode whitespace set: the characters accepted by `str.isspace`,
which is also the set matched by `\s` in `re` for `str` patterns and the set
stripped by `str.strip()`. -/
def pws (c : Char) : Bool :=
  c == ' ' || c == '\t' || c == '\n' || c == '\r' || c == '\x0b' || c == '\x0c' ||
  c == '\x1c' || c == '\x1d' || c == '\x1e' || c == '\x1f' || c == '\x85' || c == '\xa0' ||
  c == ' ' || (decide (' ' ≤ c) && decide (c ≤ ' ')) || c == ' ' ||
  c == ' ' || c == ' ' || c == ' ' || c == '　'

/-- Python `s.strip()`: drop leading and trailing whitespace. -/
def pyStrip (l : List Char) : List Char :=
  ((l.dropWhile pws).reverse.dropWhile pws).reverse

/-- Python `s.rstrip('.')`: drop every trailing period. -/
def pyRstripDot (l : List Char) : List Char :=
  (l.reverse.dropWhile (fun c => c == '.')).reverse

/-- The per-candidate cleanup shared by `_convert_to_bullet_points`,
`_process_section_lines` and the flattened branch of
`_normalize_soap_markdown`:
`item = item.strip(); item = item.rstrip('.'); if item: keep item`. -/
def cleanCandidate (s : List Char) : Option (List Char) :=
  let t := pyRstripDot (pyStrip s)
  if t = [] then none else some t

/-- Python `sub in s` (substring containment). -/
def hasSub (pat : List Char) : List Char → Bool
  | [] => pat.isEmpty
  | c :: rest => pat.isPrefixOf (c :: rest) || hasSub pat rest

/-- Python `s.split("\n")`, auxiliary accumulator form. -/
def splitNlAux : List Char → List Char → List (List Char)
  | [], acc => [acc.reverse]
  | c :: rest, acc =>
    if c = '\n' then acc.reverse :: splitNlAux rest []
    else splitNlAux rest (c :: acc)

/-- Python `s.split("\n")`. -/
def splitNl (l : List Char) : List (List Char) := splitNlAux l []

/-- Python `"\n".join(lines)`. -/
def joinNl : List (List Char) → List Char
  | [] => []
  | [l] => l
  | l :: l' :: ls => l ++ '\n' :: joinNl (l' :: ls)

/-- Python `"\n\n".join(sections)`. -/
def joinBlank : List (List Char) → List Char
  | [] => []
  | [l] => l
  | l :: l' :: ls => l ++ '\n' :: '\n' :: joinBlank (l' :: ls)

/-- The section-marker token `"##"`. -/
def hashStr : List Char := ("##").toList

/-- A one-character string holding the line break. -/
def nlStr : List Char := ("\n").toList

/-- The flatten detector of `_normalize_soap_markdown` (and of
`generate_consultation_pdf`): `"##" in markdown and "\n" not in markdown`. -/
def is_flattened (md : List Char) : Bool :=
  hasSub hashStr md && !(hasSub nlStr md)

/-! ### The separator regex `\s*-\s+|\s*\.\s*-\s*` of `_convert_to_bullet_points` -/

/-- First alternative `\s*-\s+` matched at the head of `l`: the greedy `\s*`
must run to the first non-whitespace character (a shorter run leaves a
whitespace character where `-` is required), which must be `-`, followed by at
least one whitespace character; `\s+` then runs greedily.  Returns the rest of
the string after the match. -/
def tryMatch1 (l : List Char) : Option (List Char) :=
  match l.dropWhile pws with
  | [] => none
  | c :: r =>
    if c = '-' then
      match r with
      | [] => none
      | d :: r2 => if pws d then some (r2.dropWhile pws) else none
    else none

/-- Second alternative `\s*\.\s*-\s*` matched at the head of `l`. -/
def tryMatch2 (l : List Char) : Option (List Char) :=
  match l.dropWhile pws with
  | [] => none
  | c :: r =>
    if c = '.' then
      match r.dropWhile pws with
      | [] => none
      | d :: r2 => if d = '-' then some (r2.dropWhile pws) else none
    else none

/-- The alternation: Python's `re` tries the first alternative first. -/
def sepMatch (l : List Char) : Option (List Char) :=
  match tryMatch1 l with
  | some r => some r
  | none => tryMatch2 l

/-- `re.split(r'\s*-\s+|\s*\.\s*-\s*', text)`: scan left to right for the
leftmost match, cut there, resume after the match.  Every match consumes at
least two characters, so `fuel = length` suffices. -/
def sepSplitAux : Nat → List Char → List Char → List (List Char)
  | 0, l, acc => [acc.reverse ++ l]
  | _ + 1, [], acc => [acc.reverse]
  | fuel + 1, c :: rest, acc =>
    match sepMatch (c :: rest) with
    | some r => acc.reverse :: sepSplitAux fuel r []
    | none => sepSplitAux fuel rest (c :: acc)

/-- `re.split(r'\s*-\s+|\s*\.\s*-\s*', text)`. -/
def sepSplit (l : List Char) : List (List Char) := sepSplitAux l.length l []

/-- `_convert_to_bullet_points`: split on the separator pattern, clean each
candidate, emit `- item` lines; if nothing survived, fall back to the whole
trimmed text (kept as-is when it already starts with `-`). -/
def convert_to_bullet_points (text : List Char) : List Char :=
  if pyStrip text = [] then []
  else
    let bulletItems := ((sepSplit text).filterMap cleanCandidate).map
      (fun it => '-' :: ' ' :: it)
    if bulletItems ≠ [] then joinNl bulletItems
    else if (pyStrip text).head? = some '-' then pyStrip text
    else '-' :: ' ' :: pyStrip text

/-! ### Plain `" - "` splitting used by `_process_section_lines` and the
flattened branch of `_normalize_soap_markdown` -/

/-- Does `l` begin with the literal separator `" - "`?  If so return the rest. -/
def dashHead? : List Char → Option (List Char)
  | a :: b :: c :: r => if a = ' ' ∧ b = '-' ∧ c = ' ' then some r else none
  | _ => none

/-- Python `s.split(" - ")` (leftmost, non-overlapping), fuelled. -/
def splitDashAux : Nat → List Char → List Char → List (List Char)
  | 0, l, acc => [acc.reverse ++ l]
  | _ + 1, [], acc => [acc.reverse]
  | fuel + 1, c :: rest, acc =>
    match dashHead? (c :: rest) with
    | some r => acc.reverse :: splitDashAux fuel r []
    | none => splitDashAux fuel rest (c :: acc)

/-- Python `s.split(" - ")`. -/
def splitDash (l : List Char) : List (List Char) := splitDashAux l.length l []

/-- Python `s.split(" - ", 1)`: `none` when the separator does not occur,
otherwise the pieces before and after its first occurrence. -/
def splitDash1 : List Char → Option (List Char × List Char)
  | [] => none
  | c :: rest =>
    match dashHead? (c :: rest) with
    | some r => some ([], r)
    | none => (splitDash1 rest).map (fun pr => (c :: pr.1, pr.2))

/-! ### `_ensure_bullet_points` -/

/-- Is the stripped line a markdown header (`stripped.startswith("##")`)? -/
def isHeaderLine (l : List Char) : Bool :=
  hashStr.isPrefixOf (pyStrip l)

/-- The two-character bullet marker `"- "`. -/
def dashSp : List Char := ("- ").toList

/-- The three-character separator `" - "`. -/
def spDashSp : List Char := (" - ").toList

/-- Per-line conversion of `_process_section_lines`: a line already starting
with `"- "` is kept (stripped); a line containing `" - "` is split into
cleaned bullet items; anything else becomes a single bullet. -/
def processLine (l : List Char) : List (List Char) :=
  let s := pyStrip l
  if s = [] then []
  else if dashSp.isPrefixOf s then [s]
  else if hasSub spDashSp s then
    ((splitDash s).filterMap cleanCandidate).map (fun it => '-' :: ' ' :: it)
  else ['-' :: ' ' :: s]

/-- `_process_section_lines`. -/
def processSectionLines (ls : List (List Char)) : List (List Char) :=
  ls.flatMap processLine

/-- The line loop of `_ensure_bullet_points`: `cur` is the list of accumulated
(stripped) section lines, `insec` the `in_section` flag. -/
def runAux : List (List Char) → Bool → List (List Char) → List (List Char)
  | [], _, cur => processSectionLines cur
  | l :: ls, insec, cur =>
    if isHeaderLine l then
      processSectionLines cur ++ (l :: runAux ls true [])
    else if pyStrip l = [] then
      processSectionLines cur ++ ([] :: runAux ls insec [])
    else if insec then runAux ls insec (cur ++ [pyStrip l])
    else l :: runAux ls insec cur

/-- `_ensure_bullet_points`. -/
def ensure_bullet_points (md : List Char) : List Char :=
  if md = [] then [] else joinNl (runAux (splitNl md) false [])

/-! ### The flattened branch of `_normalize_soap_markdown` -/

/-- The header-split regex `\s*##\s+` matched at the head of `l`. -/
def hashMatch? (l : List Char) : Option (List Char) :=
  match l.dropWhile pws with
  | a :: b :: c :: r =>
    if a = '#' ∧ b = '#' ∧ pws c = true then some (r.dropWhile pws) else none
  | _ => none

/-- `re.split(r'\s*##\s+', markdown)`, fuelled scanner. -/
def hashSplitAux : Nat → List Char → List Char → List (List Char)
  | 0, l, acc => [acc.reverse ++ l]
  | _ + 1, [], acc => [acc.reverse]
  | fuel + 1, c :: rest, acc =>
    match hashMatch? (c :: rest) with
    | some r => acc.reverse :: hashSplitAux fuel r []
    | none => hashSplitAux fuel rest (c :: acc)

/-- `re.split(r'\s*##\s+', markdown)`. -/
def hashSplit (l : List Char) : List (List Char) := hashSplitAux l.length l []

/-- The literal word `"Subjective"`. -/
def subjWord : List Char := ("Subjective").toList

/-- `re.sub(r'^Subjective\s*-\s*', '', part)`: strips the anchored prefix when
it is present, otherwise leaves the part unchanged. -/
def subjPrefixDrop (part : List Char) : List Char :=
  if subjWord.isPrefixOf part then
    match (part.drop 10).dropWhile pws with
    | '-' :: r2 => r2.dropWhile pws
    | _ => part
  else part

/-- Render one flattened section: bullets from the `" - "`-split pieces of the
content; when no bullet survives but the content is non-empty, `- content`;
when the content is empty, the bare header line. -/
def renderSection (header content : List Char) : List Char :=
  if content ≠ [] then
    let bullets := ((splitDash content).filterMap cleanCandidate).map
      (fun it => '-' :: ' ' :: it)
    if bullets ≠ [] then header ++ '\n' :: joinNl bullets
    else header ++ '\n' :: '-' :: ' ' :: content
  else header

/-- Processing of one part of the `\s*##\s+` split at original index `i`
(`continue` on parts that strip to empty). -/
def flatSection (i : Nat) (part0 : List Char) : Option (List Char) :=
  let part := pyStrip part0
  if part = [] then none
  else if i = 0 then
    if subjWord.isPrefixOf part then
      some (renderSection (("## Subjective").toList) (subjPrefixDrop part))
    else
      some (renderSection (("## Subjective").toList) part)
  else
    match splitDash1 part with
    | some (h, c) =>
      some (renderSection ('#' :: '#' :: ' ' :: pyStrip h) (pyStrip c))
    | none => some (renderSection ('#' :: '#' :: ' ' :: pyStrip part) [])

/-- The enumerated loop over the parts of the `\s*##\s+` split. -/
def sectionsOfParts : Nat → List (List Char) → List (List Char)
  | _, [] => []
  | i, p :: ps =>
    match flatSection i p with
    | some s => s :: sectionsOfParts (i + 1) ps
    | none => sectionsOfParts (i + 1) ps

/-- The flattened-format reconstruction inside `_normalize_soap_markdown`. -/
def flattenedReconstruct (md : List Char) : List Char :=
  joinBlank (sectionsOfParts 0 (hashSplit md))

/-- `_normalize_soap_markdown`: the markdown normalizer. -/
def normalize_soap_markdown (md : List Char) : List Char :=
  if md = [] then []
  else if is_flattened md then flattenedReconstruct md
  else ensure_bullet_points md

/-! ### `_remove_tamil_text` (the script-run filter) -/

/-- Membership in the configured foreign-script range U+0B80 – U+0BFF. -/
def isTamil (c : Char) : Bool :=
  decide ('஀' ≤ c) && decide (c ≤ '௿')

/-- Number of foreign-script characters of a line
(`sum(1 for c in line if Tamil)`). -/
def tamilCount (l : List Char) : Nat :=
  (l.filter isTamil).length

/-- A match of `\[[^\]]*[஀-௿][^\]]*\]` at the head of `l`: an opening
bracket whose span up to the first following `]` contains at least one
foreign-script character.  Returns the rest after the closing bracket. -/
def bracketMatch? (l : List Char) : Option (List Char) :=
  match l with
  | [] => none
  | c :: r =>
    if c = '[' then
      let content := r.takeWhile (fun x => !(x == ']'))
      match r.dropWhile (fun x => !(x == ']')) with
      | _ :: r2 => if content.any isTamil then some r2 else none
      | [] => none
    else none

/-- `re.sub(tamil_pattern, '', text)`: delete every leftmost, non-overlapping
match of the bracketed-foreign-span pattern; fuelled scanner. -/
def removeTamilBracketsAux : Nat → List Char → List Char
  | 0, l => l
  | _ + 1, [] => []
  | fuel + 1, c :: rest =>
    match bracketMatch? (c :: rest) with
    | some r => removeTamilBracketsAux fuel r
    | none => c :: removeTamilBracketsAux fuel rest

/-- `re.sub(tamil_pattern, '', text)`. -/
def removeTamilBrackets (l : List Char) : List Char :=
  removeTamilBracketsAux l.length l

/-- `re.sub(r'\s+', ' ', s)`: collapse every maximal whitespace run to one
space.  The flag records whether we are inside a run already emitted. -/
def collapseWsAux : Bool → List Char → List Char
  | _, [] => []
  | inRun, c :: rest =>
    if pws c then
      if inRun then collapseWsAux true rest else ' ' :: collapseWsAux true rest
    else c :: collapseWsAux false rest

/-- `re.sub(r'\s+', ' ', s)`. -/
def collapseWs (l : List Char) : List Char := collapseWsAux false l

/-- A match of `\s*\[\s*\]\s*` at the head of `l` (empty bracket pair with
surrounding whitespace); returns the rest after the match. -/
def ebMatch? (l : List Char) : Option (List Char) :=
  match l.dropWhile pws with
  | c :: r =>
    if c = '[' then
      match r.dropWhile pws with
      | d :: r2 => if d = ']' then some (r2.dropWhile pws) else none
      | [] => none
    else none
  | [] => none

/-- `re.sub(r'\s*\[\s*\]\s*', '', s)`, fuelled scanner. -/
def removeEBAux : Nat → List Char → List Char
  | 0, l => l
  | _ + 1, [] => []
  | fuel + 1, c :: rest =>
    match ebMatch? (c :: rest) with
    | some r => removeEBAux fuel r
    | none => c :: removeEBAux fuel rest

/-- `re.sub(r'\s*\[\s*\]\s*', '', s)`. -/
def removeEB (l : List Char) : List Char := removeEBAux l.length l

/-- The kept, rewritten lines of the line-filter stage: a line is kept iff
strictly less than half of its characters are foreign-script
(`tamil_chars < len(line) * 0.5`), and kept lines have their foreign-script
characters deleted. -/
def tamilFilteredLines (t : List Char) : List (List Char) :=
  (splitNl t).filterMap
    (fun l => if 2 * tamilCount l < l.length
              then some (l.filter (fun c => !isTamil c)) else none)

/-- `_remove_tamil_text`. -/
def remove_tamil_text (text : List Char) : List Char :=
  if text = [] then text
  else
    pyStrip (collapseWs (removeEB (collapseWs
      (joinNl (tamilFilteredLines (removeTamilBrackets text))))))

/-! ### Section assembly from discrete fields (`generate_consultation_pdf`) -/

/-- One field of the section-building branch: skipped when absent (`None`)
or empty (falsy), otherwise `## <Header>\n` + the filtered, bulleted text. -/
def sectionField (header : List Char) (field : Option (List Char)) :
    Option (List Char) :=
  match field with
  | none => none
  | some s =>
    if s = [] then none
    else some (('#' :: '#' :: ' ' :: header) ++
      '\n' :: convert_to_bullet_points (remove_tamil_text s))

/-- The `soap_markdown` built from discrete section fields when no combined
markdown is supplied (`generate_consultation_pdf`, sections branch). -/
def build_soap_sections (subjective objective assessment plan :
    Option (List Char)) : List Char :=
  joinBlank (List.filterMap id
    [sectionField (("Subjective").toList) subjective,
     sectionField (("Objective").toList) objective,
     sectionField (("Assessment").toList) assessment,
     sectionField (("Plan").toList) plan])

/-! ### `_add_bullet_list` (renderer bullet flush) -/

/-- Python `s.replace("bullet", "")`: delete every leftmost, non-overlapping
occurrence of the literal word `bullet`. -/
def removeBulletWord : List Char → List Char
  | 'b' :: 'u' :: 'l' :: 'l' :: 'e' :: 't' :: r => removeBulletWord r
  | c :: rest => c :: removeBulletWord rest
  | [] => []

/-- The texts of the paragraphs emitted by `_add_bullet_list`: each item is
stripped, has the word `bullet` deleted, is stripped again, and (when still
non-empty) rendered behind a `• ` glyph. -/
def add_bullet_list_texts (items : List (List Char)) : List (List Char) :=
  items.filterMap (fun item =>
    let t := pyStrip item
    if t = [] then none
    else
      let t2 := pyStrip (removeBulletWord t)
      if t2 = [] then none else some ('•' :: ' ' :: t2))

/-! ### Observation helpers used to state the claims -/

/-- The header lines of a markdown string, in order. -/
def headerLines (s : List Char) : List (List Char) :=
  (splitNl s).filter isHeaderLine

/-- The lines following the line whose stripped form is `## hdr`. -/
def afterHeader : List (List Char) → List Char → List (List Char)
  | [], _ => []
  | l :: ls, hdr =>
    if pyStrip l = '#' :: '#' :: ' ' :: hdr then ls else afterHeader ls hdr

/-- The bullet items at the front of a line block, up to the next header. -/
def bulletsAfter : List (List Char) → List (List Char)
  | [] => []
  | l :: ls =>
    if isHeaderLine l then []
    else
      (if dashSp.isPrefixOf (pyStrip l) then [(pyStrip l).drop 2] else []) ++
      bulletsAfter ls

/-- The bullet items of the section headed `## hdr` in a markdown string. -/
def sectionBullets (s hdr : List Char) : List (List Char) :=
  bulletsAfter (afterHeader (splitNl s) hdr)

/-- Spec-side predicate: some hyphen of the text is directly followed by a
whitespace character (the shape on which `\s*-\s+` can fire). -/
def hasDashWs : List Char → Bool
  | a :: b :: rest =>
    if a = '-' ∧ pws b = true then true else hasDashWs (b :: rest)
  | _ => false

/-- Spec-side predicate: the first non-whitespace character of `l` is `-`. -/
def dashAfterWs (l : List Char) : Bool :=
  match l.dropWhile pws with
  | c :: _ => if c = '-' then true else false
  | [] => false

/-- Spec-side predicate: some period of the text is followed, over optional
whitespace, by a hyphen (the shape on which `\s*\.\s*-\s*` can fire). -/
def hasDotDash : List Char → Bool
  | [] => false
  | c :: rest =>
    if c = '.' ∧ dashAfterWs rest = true then true else hasDotDash rest

/-- A line that the second pass of `_ensure_bullet_points` passes through
unchanged once a header has been seen: an empty line, a header line, or a
fully stripped bullet line. -/
def canonQ (x : List Char) : Prop :=
  x = [] ∨ isHeaderLine x = true ∨ (pyStrip x = x ∧ dashSp.isPrefixOf x = true)

/-- Line lists that `_ensure_bullet_points` maps to themselves: before the
first header, empty lines and untouched original prose lines; from the first
header on, only `canonQ` lines. -/
inductive Canon0 : List (List Char) → Prop
  | nil : Canon0 []
  | empty (L : List (List Char)) : Canon0 L → Canon0 ([] :: L)
  | orig (l : List Char) (L : List (List Char)) :
      isHeaderLine l = false → pyStrip l ≠ [] → Canon0 L → Canon0 (l :: L)
  | header (l : List Char) (L : List (List Char)) :
      isHeaderLine l = true → (∀ x ∈ L, canonQ x) → Canon0 (l :: L)

/-! ### Concrete strings for the spec scenarios -/

/-- Scenario A input (flattened text with an inline `## Plan` marker). -/
def scenA : List Char :=
  ("Subjective - Abdominal pain. Sensation of a stomach ulcer. ## Plan - Further investigation. - Prescribe antacids. - Follow up.").toList

/-- What the code actually produces for Scenario A. -/
def scenARes : List Char :=
  ("## Subjective\n- Abdominal pain. Sensation of a stomach ulcer\n\n## Plan\n- Further investigation\n- Prescribe antacids\n- Follow up").toList

/-- Scenario B input (already structured markdown). -/
def scenB : List Char :=
  ("## Subjective\n- Fever\n- Cough\n\n## Plan\n- Rest").toList

/-- A structured input on which the normalizer is not idempotent: the item
`"c ."` is cleaned to `"c "` (trailing space), which a second pass strips. -/
def nonIdemIn : List Char := ("## A\nb - c .").toList

/-- Mixed input for the script-run filter: a bracketed foreign gloss in a
kept line, and a majority-foreign line. -/
def tamilMixed : List Char := ("a [இ] b\nஇஇc").toList

/-- A line whose characters are majority foreign-script but not all. -/
def tamilMajorityLine : List Char := ("இஇa").toList

/-- What the code actually assembles for Scenario C. -/
def scenCRes : List Char :=
  ("## Objective\n- BP 120/80\n\n## Plan\n- Paracetamol 500mg\n- TID").toList

/-- The Scenario D content with an internal hyphen. -/
def postOp : List Char := ("post-op care advised").toList

/-! ## Helper lemmas -/

theorem mem_pyStrip {c : Char} {l : List Char} (h : c ∈ pyStrip l) : c ∈ l := by
  unfold pyStrip at h
  rw [List.mem_reverse] at h
  have h2 := (List.dropWhile_sublist pws).subset h
  rw [List.mem_reverse] at h2
  exact (List.dropWhile_sublist pws).subset h2

theorem mem_pyRstripDot {c : Char} {l : List Char} (h : c ∈ pyRstripDot l) :
    c ∈ l := by
  unfold pyRstripDot at h
  rw [List.mem_reverse] at h
  have h2 := (List.dropWhile_sublist _).subset h
  rwa [List.mem_reverse] at h2

theorem head?_dropWhile {p : Char → Bool} {l : List Char} {c : Char}
    (h : (l.dropWhile p).head? = some c) : p c = false := by
  induction l with
  | nil => simp at h
  | cons a as ih =>
    rw [List.dropWhile_cons] at h
    by_cases hp : p a = true
    · exact ih (by simpa [hp] using h)
    · rw [if_neg hp] at h
      simp only [List.head?_cons, Option.some.injEq] at h
      subst h
      simpa using hp

theorem pyStrip_cons_of_not_ws {c : Char} {l : List Char} (h : pws c = false) :
    ∃ t, pyStrip (c :: l) = c :: t := by
  unfold pyStrip
  have h1 : List.dropWhile pws (c :: l) = c :: l := by
    rw [List.dropWhile_cons, h]; simp
  rw [h1, List.reverse_cons, List.dropWhile_append]
  by_cases he : ((l.reverse.dropWhile pws).isEmpty : Prop)
  · refine ⟨[], ?_⟩
    rw [if_pos he]
    have h2 : List.dropWhile pws [c] = [c] := by
      rw [List.dropWhile_cons, h]; simp
    rw [h2]; rfl
  · rw [if_neg he]
    exact ⟨(l.reverse.dropWhile pws).reverse, by simp⟩

theorem isHeaderLine_nil : isHeaderLine ([] : List Char) = false := by decide

theorem isHeaderLine_of_dashSp {p : List Char}
    (h : dashSp.isPrefixOf p = true) : isHeaderLine p = false := by
  rw [List.isPrefixOf_iff_prefix] at h
  obtain ⟨t, ht⟩ := h
  subst ht
  obtain ⟨t', ht'⟩ := pyStrip_cons_of_not_ws (c := '-') (l := ' ' :: t) (by decide)
  unfold isHeaderLine
  rw [show (dashSp ++ t : List Char) = '-' :: ' ' :: t from rfl, ht']
  simp [hashStr, List.isPrefixOf]

theorem splitNlAux_no_nl {l acc : List Char} {p : List Char}
    (hacc : ('\n' : Char) ∉ acc) (h : p ∈ splitNlAux l acc) :
    ('\n' : Char) ∉ p := by
  induction l generalizing acc with
  | nil =>
    simp only [splitNlAux, List.mem_singleton] at h
    subst h
    simpa using hacc
  | cons c rest ih =>
    simp only [splitNlAux] at h
    by_cases hc : c = '\n'
    · rw [if_pos hc] at h
      rcases List.mem_cons.mp h with h1 | h1
      · subst h1; simpa using hacc
      · exact ih (by simp) h1
    · rw [if_neg hc] at h
      refine ih ?_ h
      intro hm
      rcases List.mem_cons.mp hm with h1 | h1
      · exact hc h1.symm
      · exact hacc h1

theorem splitNl_no_nl {l : List Char} {p : List Char} (h : p ∈ splitNl l) :
    ('\n' : Char) ∉ p :=
  splitNlAux_no_nl (by simp) h

theorem splitNlAux_of_no_nl {a : List Char} (acc : List Char)
    (ha : ('\n' : Char) ∉ a) : splitNlAux a acc = [acc.reverse ++ a] := by
  induction a generalizing acc with
  | nil => simp [splitNlAux]
  | cons c rest ih =>
    have hc : c ≠ '\n' := fun h => ha (h ▸ List.mem_cons_self c rest)
    simp only [splitNlAux, if_neg hc]
    rw [ih (c :: acc) (fun h => ha (List.mem_cons_of_mem c h))]
    simp

theorem splitNlAux_append_nl {a : List Char} (acc r : List Char)
    (ha : ('\n' : Char) ∉ a) :
    splitNlAux (a ++ '\n' :: r) acc = (acc.reverse ++ a) :: splitNlAux r [] := by
  induction a generalizing acc with
  | nil => simp [splitNlAux]
  | cons c rest ih =>
    have hc : c ≠ '\n' := fun h => ha (h ▸ List.mem_cons_self c rest)
    simp only [List.cons_append, splitNlAux, if_neg hc, List.append_eq]
    rw [ih (c :: acc) (fun h => ha (List.mem_cons_of_mem c h))]
    simp

theorem splitNl_joinNl {L : List (List Char)} (hne : L ≠ [])
    (hnl : ∀ l ∈ L, ('\n' : Char) ∉ l) : splitNl (joinNl L) = L := by
  induction L with
  | nil => exact absurd rfl hne
  | cons l ls ih =>
    cases ls with
    | nil =>
      show splitNlAux (joinNl [l]) [] = [l]
      rw [show joinNl [l] = l from rfl]
      rw [splitNlAux_of_no_nl [] (hnl l (List.mem_cons_self _ _))]
      simp
    | cons l' ls' =>
      show splitNlAux (joinNl (l :: l' :: ls')) [] = l :: l' :: ls'
      rw [show joinNl (l :: l' :: ls') = l ++ '\n' :: joinNl (l' :: ls') from rfl]
      rw [splitNlAux_append_nl [] _ (hnl l (List.mem_cons_self _ _))]
      have := ih (by simp) (fun x hx => hnl x (List.mem_cons_of_mem l hx))
      rw [show splitNl (joinNl (l' :: ls')) = splitNlAux (joinNl (l' :: ls')) []
        from rfl] at this
      rw [this]
      simp

theorem joinNl_eq_nil {L : List (List Char)} (h : joinNl L = []) :
    L = [] ∨ L = [[]] := by
  match L with
  | [] => exact Or.inl rfl
  | [l] => exact Or.inr (by rw [show joinNl [l] = l from rfl] at h; rw [h])
  | l :: l' :: ls =>
    rw [show joinNl (l :: l' :: ls) = l ++ '\n' :: joinNl (l' :: ls) from rfl]
      at h
    exact absurd h (by simp)

theorem dashHead?_eq {l r : List Char} (h : dashHead? l = some r) :
    l = ' ' :: '-' :: ' ' :: r := by
  match l with
  | [] => simp [dashHead?] at h
  | [a] => simp [dashHead?] at h
  | [a, b] => simp [dashHead?] at h
  | a :: b :: c :: rest =>
    simp only [dashHead?] at h
    by_cases hc : a = ' ' ∧ b = '-' ∧ c = ' '
    · rw [if_pos hc] at h
      obtain ⟨h1, h2, h3⟩ := hc
      simp only [Option.some.injEq] at h
      subst h1; subst h2; subst h3; subst h
      rfl
    · rw [if_neg hc] at h
      exact absurd h (by simp)

theorem splitDashAux_chars {fuel : Nat} {l acc p : List Char} {c : Char}
    (hp : p ∈ splitDashAux fuel l acc) (hc : c ∈ p) : c ∈ l ∨ c ∈ acc := by
  induction fuel generalizing l acc with
  | zero =>
    simp only [splitDashAux, List.mem_singleton] at hp
    subst hp
    rcases List.mem_append.mp hc with h | h
    · exact Or.inr (List.mem_reverse.mp h)
    · exact Or.inl h
  | succ fuel ih =>
    match l with
    | [] =>
      simp only [splitDashAux, List.mem_singleton] at hp
      subst hp
      exact Or.inr (List.mem_reverse.mp hc)
    | x :: rest =>
      simp only [splitDashAux] at hp
      rcases hm : dashHead? (x :: rest) with _ | r
      · rw [hm] at hp
        rcases ih hp with h | h
        · exact Or.inl (List.mem_cons_of_mem x h)
        · rcases List.mem_cons.mp h with h1 | h1
          · exact Or.inl (h1 ▸ List.mem_cons_self x rest)
          · exact Or.inr h1
      · rw [hm] at hp
        rcases List.mem_cons.mp hp with h1 | h1
        · subst h1
          exact Or.inr (List.mem_reverse.mp hc)
        · rcases ih h1 with h | h
          · have := dashHead?_eq hm
            rw [this]
            exact Or.inl (by simp [h])
          · exact absurd h (List.not_mem_nil c)

theorem processLine_starts {l p : List Char} (hp : p ∈ processLine l) :
    dashSp.isPrefixOf p = true := by
  unfold processLine at hp
  by_cases h1 : pyStrip l = []
  · rw [if_pos h1] at hp; exact absurd hp (List.not_mem_nil p)
  · rw [if_neg h1] at hp
    by_cases h2 : dashSp.isPrefixOf (pyStrip l) = true
    · rw [if_pos h2] at hp
      rcases List.mem_singleton.mp hp with h
      exact h ▸ h2
    · rw [if_neg h2] at hp
      by_cases h3 : hasSub spDashSp (pyStrip l) = true
      · rw [if_pos h3] at hp
        obtain ⟨it, _, hit⟩ := List.mem_map.mp hp
        rw [← hit]
        simp [dashSp, List.isPrefixOf]
      · rw [if_neg h3] at hp
        rcases List.mem_singleton.mp hp with h
        subst h
        simp [dashSp, List.isPrefixOf]

theorem processLine_not_header {l p : List Char} (hp : p ∈ processLine l) :
    isHeaderLine p = false :=
  isHeaderLine_of_dashSp (processLine_starts hp)

theorem processSectionLines_filter_header (ls : List (List Char)) :
    (processSectionLines ls).filter isHeaderLine = [] := by
  rw [List.filter_eq_nil_iff]
  intro p hp
  obtain ⟨l, _, hpl⟩ := List.mem_flatMap.mp hp
  simp [processLine_not_header hpl]

theorem processLine_chars {l p : List Char} {c : Char}
    (hp : p ∈ processLine l) (hc : c ∈ p) : c = '-' ∨ c = ' ' ∨ c ∈ l := by
  unfold processLine at hp
  by_cases h1 : pyStrip l = []
  · rw [if_pos h1] at hp; exact absurd hp (List.not_mem_nil p)
  · rw [if_neg h1] at hp
    by_cases h2 : dashSp.isPrefixOf (pyStrip l) = true
    · rw [if_pos h2] at hp
      rcases List.mem_singleton.mp hp with h
      subst h
      exact Or.inr (Or.inr (mem_pyStrip hc))
    · rw [if_neg h2] at hp
      by_cases h3 : hasSub spDashSp (pyStrip l) = true
      · rw [if_pos h3] at hp
        obtain ⟨it, hitmem, hit⟩ := List.mem_map.mp hp
        subst hit
        rcases List.mem_cons.mp hc with h | h
        · exact Or.inl h
        rcases List.mem_cons.mp h with h | h
        · exact Or.inr (Or.inl h)
        obtain ⟨piece, hpiece, hclean⟩ := List.mem_filterMap.mp hitmem
        unfold cleanCandidate at hclean
        by_cases h4 : pyRstripDot (pyStrip piece) = []
        · rw [if_pos h4] at hclean; exact absurd hclean (by simp)
        · rw [if_neg h4] at hclean
          simp only [Option.some.injEq] at hclean
          subst hclean
          have h5 : c ∈ piece := mem_pyStrip (mem_pyRstripDot h)
          rcases splitDashAux_chars hpiece h5 with h6 | h6
          · exact Or.inr (Or.inr (mem_pyStrip h6))
          · exact absurd h6 (List.not_mem_nil c)
      · rw [if_neg h3] at hp
        rcases List.mem_singleton.mp hp with h
        subst h
        rcases List.mem_cons.mp hc with h | h
        · exact Or.inl h
        rcases List.mem_cons.mp h with h | h
        · exact Or.inr (Or.inl h)
        · exact Or.inr (Or.inr (mem_pyStrip h))

theorem processLine_no_nl {l p : List Char} (hl : ('\n' : Char) ∉ l)
    (hp : p ∈ processLine l) : ('\n' : Char) ∉ p := by
  intro hc
  rcases processLine_chars hp hc with h | h | h
  · exact absurd h (by decide)
  · exact absurd h (by decide)
  · exact hl h

theorem runAux_filter_header (ls : List (List Char)) (insec : Bool)
    (cur : List (List Char)) :
    (runAux ls insec cur).filter isHeaderLine = ls.filter isHeaderLine := by
  induction ls generalizing insec cur with
  | nil =>
    simp [runAux, processSectionLines_filter_header]
  | cons l ls ih =>
    simp only [runAux]
    by_cases h1 : isHeaderLine l = true
    · rw [if_pos h1, List.filter_append, processSectionLines_filter_header,
        List.nil_append, List.filter_cons, if_pos h1, ih, List.filter_cons,
        if_pos h1]
    · rw [if_neg h1]
      by_cases h2 : pyStrip l = []
      · rw [if_pos h2, List.filter_append, processSectionLines_filter_header,
          List.nil_append, List.filter_cons, if_neg (by simp [isHeaderLine_nil]),
          ih, List.filter_cons, if_neg h1]
      · rw [if_neg h2]
        by_cases h3 : (insec : Prop)
        · rw [if_pos h3, ih, List.filter_cons, if_neg h1]
        · rw [if_neg h3, List.filter_cons, if_neg h1, List.filter_cons,
            if_neg h1, ih]

theorem runAux_no_nl {ls : List (List Char)} {insec : Bool}
    {cur : List (List Char)} {p : List Char}
    (hls : ∀ l ∈ ls, ('\n' : Char) ∉ l) (hcur : ∀ l ∈ cur, ('\n' : Char) ∉ l)
    (hp : p ∈ runAux ls insec cur) : ('\n' : Char) ∉ p := by
  induction ls generalizing insec cur with
  | nil =>
    obtain ⟨l, hl, hpl⟩ := List.mem_flatMap.mp hp
    exact processLine_no_nl (hcur l hl) hpl
  | cons l ls ih =>
    simp only [runAux] at hp
    by_cases h1 : isHeaderLine l = true
    · rw [if_pos h1] at hp
      rcases List.mem_append.mp hp with h | h
      · obtain ⟨x, hx, hpx⟩ := List.mem_flatMap.mp h
        exact processLine_no_nl (hcur x hx) hpx
      · rcases List.mem_cons.mp h with h' | h'
        · exact h' ▸ hls l (List.mem_cons_self _ _)
        · exact ih (fun x hx => hls x (List.mem_cons_of_mem _ hx)) (by simp) h'
    · rw [if_neg h1] at hp
      by_cases h2 : pyStrip l = []
      · rw [if_pos h2] at hp
        rcases List.mem_append.mp hp with h | h
        · obtain ⟨x, hx, hpx⟩ := List.mem_flatMap.mp h
          exact processLine_no_nl (hcur x hx) hpx
        · rcases List.mem_cons.mp h with h' | h'
          · subst h'; simp
          · exact ih (fun x hx => hls x (List.mem_cons_of_mem _ hx)) (by simp) h'
      · rw [if_neg h2] at hp
        by_cases h3 : (insec : Prop)
        · rw [if_pos h3] at hp
          refine ih (fun x hx => hls x (List.mem_cons_of_mem _ hx)) ?_ hp
          intro x hx
          rcases List.mem_append.mp hx with h | h
          · exact hcur x h
          · rcases List.mem_singleton.mp h with h'
            subst h'
            exact fun hm => hls l (List.mem_cons_self _ _) (mem_pyStrip hm)
        · rw [if_neg h3] at hp
          rcases List.mem_cons.mp hp with h' | h'
          · exact h' ▸ hls l (List.mem_cons_self _ _)
          · exact ih (fun x hx => hls x (List.mem_cons_of_mem _ hx)) hcur h'

theorem headerLines_nil : headerLines ([] : List Char) = [] := by decide

/-- C1.  The spec claims `normalize(x)` always contains exactly the four
canonical headers, synthesizing missing ones; the code synthesizes nothing.
Corrected statement: for non-flattened input, the normalizer emits exactly
the header lines present in the input, in order — sections absent from the
input are absent from the output. -/
theorem C1_normalizer_preserves_headers (md : List Char)
    (h : is_flattened md = false) :
    headerLines (normalize_soap_markdown md) = headerLines md := by
  by_cases hmd : md = []
  · subst hmd
    simp [normalize_soap_markdown]
  · have hnorm : normalize_soap_markdown md = ensure_bullet_points md := by
      unfold normalize_soap_markdown
      rw [if_neg hmd, h]
      simp
    rw [hnorm]
    unfold ensure_bullet_points
    rw [if_neg hmd]
    set L := runAux (splitNl md) false [] with hL
    have hfilter : L.filter isHeaderLine = (splitNl md).filter isHeaderLine :=
      runAux_filter_header _ _ _
    by_cases hj : joinNl L = []
    · rw [hj, headerLines_nil]
      have : headerLines md = L.filter isHeaderLine := hfilter.symm
      rw [show headerLines md = (splitNl md).filter isHeaderLine from rfl,
        ← hfilter]
      rcases joinNl_eq_nil hj with h' | h'
      · rw [h']; rfl
      · rw [h']
        simp [List.filter_cons, isHeaderLine_nil]
    · have hLne : L ≠ [] := fun h' => hj (by rw [h']; rfl)
      have hnl : ∀ l ∈ L, ('\n' : Char) ∉ l := fun l hl =>
        runAux_no_nl (fun x hx => splitNl_no_nl hx) (by simp) hl
      rw [show headerLines (joinNl L) = (splitNl (joinNl L)).filter isHeaderLine
        from rfl]
      rw [splitNl_joinNl hLne hnl, hfilter]
      rfl

/-- Witness for C1 at the Scenario B input. -/
theorem C1_normalizer_preserves_headers_witness :
    is_flattened scenB = false ∧
      headerLines (normalize_soap_markdown scenB) = headerLines scenB :=
  ⟨by decide, C1_normalizer_preserves_headers scenB (by decide)⟩

/-- Counterexample to C1 as stated: normalizing the structured Scenario B
input yields only the two headers present in the input; no `## Objective`
(nor `## Assessment`) section is synthesized, so the output does not contain
the four canonical headers. -/
theorem C1_counterexample :
    headerLines (normalize_soap_markdown scenB) =
      [("## Subjective").toList, ("## Plan").toList] ∧
    hasSub (("## Objective").toList) (normalize_soap_markdown scenB) = false ∧
    hasSub (("## Assessment").toList) (normalize_soap_markdown scenB) = false := by
  decide

theorem processSectionLines_nil : processSectionLines [] = [] := rfl

theorem processLine_self {l : List Char} (hstrip : pyStrip l = l)
    (hpre : dashSp.isPrefixOf l = true) : processLine l = [l] := by
  have hne : l ≠ [] := by
    intro h
    subst h
    simp [dashSp, List.isPrefixOf] at hpre
  unfold processLine
  rw [hstrip, if_neg hne, if_pos hpre]

theorem runAux_canon1 (L : List (List Char)) : ∀ cur : List (List Char),
    (∀ x ∈ L, canonQ x) → (∀ c ∈ cur, processLine c = [c]) →
    runAux L true cur = processSectionLines cur ++ L := by
  induction L with
  | nil =>
    intro cur _ _
    simp [runAux]
  | cons x L ih =>
    intro cur hQ hcur
    have hQx := hQ x (List.mem_cons_self _ _)
    have hQL := fun y hy => hQ y (List.mem_cons_of_mem x hy)
    have hprocur : processSectionLines cur = cur := by
      unfold processSectionLines
      induction cur with
      | nil => rfl
      | cons c cs ihc =>
        rw [List.flatMap_cons, hcur c (List.mem_cons_self _ _),
          ihc (fun y hy => hcur y (List.mem_cons_of_mem c hy))]
        rfl
    rcases hQx with hx | hx | ⟨hstrip, hpre⟩
    · subst hx
      simp only [runAux, isHeaderLine_nil, Bool.false_eq_true, if_false,
        show pyStrip ([] : List Char) = [] from rfl, if_pos rfl]
      rw [ih [] hQL (by simp), processSectionLines_nil]
      simp
    · simp only [runAux, hx, if_true]
      rw [ih [] hQL (by simp), processSectionLines_nil]
      simp
    · have hhdr : isHeaderLine x = false := isHeaderLine_of_dashSp hpre
      have hne : x ≠ [] := by
        intro h; subst h; simp [dashSp, List.isPrefixOf] at hpre
      simp only [runAux, hhdr, Bool.false_eq_true, if_false, hstrip,
        if_neg hne, if_true]
      rw [ih (cur ++ [x]) hQL ?_]
      · rw [show processSectionLines (cur ++ [x]) =
            processSectionLines cur ++ processLine x from by
          unfold processSectionLines; simp]
        rw [processLine_self hstrip hpre]
        simp
      · intro c hc
        rcases List.mem_append.mp hc with h | h
        · exact hcur c h
        · rcases List.mem_singleton.mp h with h'
          subst h'
          exact processLine_self hstrip hpre

theorem runAux_shape1 (ls : List (List Char)) : ∀ cur : List (List Char),
    ∀ x ∈ runAux ls true cur,
      x = [] ∨ isHeaderLine x = true ∨ dashSp.isPrefixOf x = true := by
  induction ls with
  | nil =>
    intro cur x hx
    obtain ⟨l, _, hxl⟩ := List.mem_flatMap.mp hx
    exact Or.inr (Or.inr (processLine_starts hxl))
  | cons l ls ih =>
    intro cur x hx
    simp only [runAux] at hx
    by_cases h1 : isHeaderLine l = true
    · rw [if_pos h1] at hx
      rcases List.mem_append.mp hx with h | h
      · obtain ⟨y, _, hxy⟩ := List.mem_flatMap.mp h
        exact Or.inr (Or.inr (processLine_starts hxy))
      · rcases List.mem_cons.mp h with h' | h'
        · exact Or.inr (Or.inl (h' ▸ h1))
        · exact ih [] x h'
    · rw [if_neg h1] at hx
      by_cases h2 : pyStrip l = []
      · rw [if_pos h2] at hx
        rcases List.mem_append.mp hx with h | h
        · obtain ⟨y, _, hxy⟩ := List.mem_flatMap.mp h
          exact Or.inr (Or.inr (processLine_starts hxy))
        · rcases List.mem_cons.mp h with h' | h'
          · exact Or.inl h'
          · exact ih [] x h'
      · rw [if_neg h2] at hx
        simp only [if_true] at hx
        exact ih _ x hx

theorem runAux_shape0 (ls : List (List Char))
    (hstrip : ∀ x ∈ runAux ls false [], pyStrip x = x) :
    Canon0 (runAux ls false []) := by
  induction ls with
  | nil => exact Canon0.nil
  | cons l ls ih =>
    by_cases h1 : isHeaderLine l = true
    · have hout : runAux (l :: ls) false [] = l :: runAux ls true [] := by
        simp [runAux, h1, processSectionLines_nil]
      rw [hout]
      rw [hout] at hstrip
      refine Canon0.header l _ h1 ?_
      intro x hx
      rcases runAux_shape1 ls [] x hx with h | h | h
      · exact Or.inl h
      · exact Or.inr (Or.inl h)
      · exact Or.inr (Or.inr ⟨hstrip x (List.mem_cons_of_mem l hx), h⟩)
    · by_cases h2 : pyStrip l = []
      · have hout : runAux (l :: ls) false [] = [] :: runAux ls false [] := by
          simp only [runAux, h1, Bool.false_eq_true, if_false, if_pos h2]
          rfl
        rw [hout]
        rw [hout] at hstrip
        exact Canon0.empty _ (ih (fun x hx =>
          hstrip x (List.mem_cons_of_mem _ hx)))
      · have hout : runAux (l :: ls) false [] = l :: runAux ls false [] := by
          simp only [runAux, h1, Bool.false_eq_true, if_false, if_neg h2]
        rw [hout]
        rw [hout] at hstrip
        exact Canon0.orig l _ (by simpa using h1) h2
          (ih (fun x hx => hstrip x (List.mem_cons_of_mem _ hx)))

theorem canon0_run {L : List (List Char)} (h : Canon0 L) :
    runAux L false [] = L := by
  induction h with
  | nil => rfl
  | empty L hL ih =>
    have hout : runAux ([] :: L) false [] =
        processSectionLines [] ++ ([] :: runAux L false []) := by
      simp only [runAux, isHeaderLine_nil, Bool.false_eq_true, if_false,
        show pyStrip ([] : List Char) = [] from rfl, if_true]
    rw [hout, ih, processSectionLines_nil, List.nil_append]
  | orig l L h1 h2 hL ih =>
    simp only [runAux, h1, Bool.false_eq_true, if_false, if_neg h2]
    rw [ih]
  | header l L h1 hQ =>
    have hout : runAux (l :: L) false [] =
        processSectionLines [] ++ (l :: runAux L true []) := by
      simp only [runAux, h1, if_true]
    rw [hout, runAux_canon1 L [] hQ (by simp), processSectionLines_nil,
      List.nil_append, List.nil_append]

theorem ensure_bullet_points_eq {md : List Char} (h : md ≠ []) :
    ensure_bullet_points md = joinNl (runAux (splitNl md) false []) := by
  unfold ensure_bullet_points
  rw [if_neg h]

theorem normalize_eq_ensure {md : List Char} (hne : md ≠ [])
    (h : is_flattened md = false) :
    normalize_soap_markdown md = ensure_bullet_points md := by
  unfold normalize_soap_markdown
  rw [if_neg hne, h]
  simp

/-- C2.  The spec claims `normalize` is idempotent on all inputs; the code is
not (cleaning an item such as `"c ."` leaves a trailing space that a second
pass removes).  Corrected statement: re-normalizing changes nothing whenever
the first normalization is of structured input, produces structured output,
and every produced line is already stripped — which holds in particular for
the Scenario B input. -/
theorem C2_normalize_idempotent_on_stripped (md : List Char)
    (h1 : is_flattened md = false)
    (h2 : is_flattened (normalize_soap_markdown md) = false)
    (h3 : ∀ l ∈ splitNl (normalize_soap_markdown md), pyStrip l = l) :
    normalize_soap_markdown (normalize_soap_markdown md) =
      normalize_soap_markdown md := by
  by_cases hmd : md = []
  · subst hmd
    simp [normalize_soap_markdown]
  · rw [normalize_eq_ensure hmd h1] at h2 h3 ⊢
    by_cases hE : ensure_bullet_points md = []
    · rw [hE]
      simp [normalize_soap_markdown]
    · set L := runAux (splitNl md) false [] with hLdef
      have hEdef : ensure_bullet_points md = joinNl L :=
        ensure_bullet_points_eq hmd
      have hLne : L ≠ [] := fun h => hE (by rw [hEdef, h]; rfl)
      have hnl : ∀ l ∈ L, ('\n' : Char) ∉ l := fun l hl =>
        runAux_no_nl (fun x hx => splitNl_no_nl hx) (by simp) hl
      have hsplitE : splitNl (ensure_bullet_points md) = L := by
        rw [hEdef]
        exact splitNl_joinNl hLne hnl
      have h3' : ∀ l ∈ L, pyStrip l = l := fun l hl =>
        h3 l (by rw [hsplitE]; exact hl)
      have hcanon : Canon0 L := runAux_shape0 _ h3'
      rw [normalize_eq_ensure hE h2, ensure_bullet_points_eq hE, hsplitE,
        canon0_run hcanon, ← hEdef]

/-- Witness for C2: the Scenario B input satisfies all three hypotheses and
is in fact a fixed point of the normalizer. -/
theorem C2_normalize_idempotent_on_stripped_witness :
    normalize_soap_markdown (normalize_soap_markdown scenB) =
      normalize_soap_markdown scenB ∧
    normalize_soap_markdown scenB = scenB :=
  ⟨C2_normalize_idempotent_on_stripped scenB (by decide) (by decide)
    (by decide), by decide⟩

/-- Counterexample to C2 as stated: on `"## A\nb - c ."` the normalizer is
not idempotent — the first pass yields `"## A\n- b\n- c "` (trailing space),
the second pass strips it. -/
theorem C2_counterexample :
    normalize_soap_markdown (normalize_soap_markdown nonIdemIn) ≠
      normalize_soap_markdown nonIdemIn := by
  decide

set_option maxRecDepth 10000 in
/-- Counterexample to C3 as stated: the flattened branch splits section
content only on `" - "`, never on sentence periods, so the Subjective section
of Scenario A gets the single bullet
`"Abdominal pain. Sensation of a stomach ulcer"` rather than the two bullets
the spec expects, and no empty Objective/Assessment sections are produced. -/
theorem C3_counterexample :
    sectionBullets (normalize_soap_markdown scenA) (("Subjective").toList) =
      [("Abdominal pain. Sensation of a stomach ulcer").toList] ∧
    sectionBullets (normalize_soap_markdown scenA) (("Subjective").toList) ≠
      [("Abdominal pain").toList,
       ("Sensation of a stomach ulcer").toList] ∧
    hasSub (("## Objective").toList) (normalize_soap_markdown scenA) = false ∧
    hasSub (("## Assessment").toList) (normalize_soap_markdown scenA) =
      false := by
  decide

set_option maxRecDepth 10000 in
/-- C3.  Amended statement: normalizing the Scenario A input yields a
Subjective section with the single bullet
`"Abdominal pain. Sensation of a stomach ulcer"`, a Plan section with the
three expected bullets, and no Objective or Assessment section at all. -/
theorem C3_scenarioA_actual_output :
    normalize_soap_markdown scenA = scenARes ∧
    sectionBullets scenARes (("Plan").toList) =
      [("Further investigation").toList, ("Prescribe antacids").toList,
       ("Follow up").toList] ∧
    headerLines scenARes =
      [("## Subjective").toList, ("## Plan").toList] := by
  decide

theorem collapseWsAux_mem {b : Bool} {l : List Char} {c : Char}
    (h : c ∈ collapseWsAux b l) : c = ' ' ∨ c ∈ l := by
  induction l generalizing b with
  | nil => simp [collapseWsAux] at h
  | cons x rest ih =>
    simp only [collapseWsAux] at h
    by_cases hx : pws x = true
    · rw [if_pos hx] at h
      by_cases hb : (b : Prop)
      · rw [if_pos hb] at h
        rcases ih h with h' | h'
        · exact Or.inl h'
        · exact Or.inr (List.mem_cons_of_mem x h')
      · rw [if_neg hb] at h
        rcases List.mem_cons.mp h with h' | h'
        · exact Or.inl h'
        · rcases ih h' with h'' | h''
          · exact Or.inl h''
          · exact Or.inr (List.mem_cons_of_mem x h'')
    · rw [if_neg hx] at h
      rcases List.mem_cons.mp h with h' | h'
      · exact Or.inr (h' ▸ List.mem_cons_self x rest)
      · rcases ih h' with h'' | h''
        · exact Or.inl h''
        · exact Or.inr (List.mem_cons_of_mem x h'')

theorem collapseWsAux_ws_is_space {b : Bool} {l : List Char} {c : Char}
    (h : c ∈ collapseWsAux b l) (hws : pws c = true) : c = ' ' := by
  induction l generalizing b with
  | nil => simp [collapseWsAux] at h
  | cons x rest ih =>
    simp only [collapseWsAux] at h
    by_cases hx : pws x = true
    · rw [if_pos hx] at h
      by_cases hb : (b : Prop)
      · rw [if_pos hb] at h
        exact ih h
      · rw [if_neg hb] at h
        rcases List.mem_cons.mp h with h' | h'
        · exact h'
        · exact ih h'
    · rw [if_neg hx] at h
      rcases List.mem_cons.mp h with h' | h'
      · exact absurd (h' ▸ hws) (by simp [hx])
      · exact ih h'

theorem collapseWs_no_nl {l : List Char} : ('\n' : Char) ∉ collapseWs l := by
  intro h
  have := collapseWsAux_ws_is_space h (by decide)
  exact absurd this (by decide)

theorem ebMatch?_suffix {l r : List Char} (h : ebMatch? l = some r) :
    r <:+ l := by
  unfold ebMatch? at h
  split at h
  · rename_i c r1 heq
    split at h
    · rename_i hc
      split at h
      · rename_i d r2 heq2
        split at h
        · rename_i hdc
          simp only [Option.some.injEq] at h
          subst h
          have s3 : (d :: r2 : List Char) <:+ r1 := by
            rw [← heq2]; exact List.dropWhile_suffix pws
          have s5 : (c :: r1 : List Char) <:+ l := by
            rw [← heq]; exact List.dropWhile_suffix pws
          exact ((((List.dropWhile_suffix pws).trans
            (List.suffix_cons d r2)).trans s3).trans
            (List.suffix_cons c r1)).trans s5
        · exact absurd h (by simp)
      · rename_i heq2
        exact absurd h (by simp)
    · exact absurd h (by simp)
  · rename_i heq
    exact absurd h (by simp)

theorem removeEBAux_mem {fuel : Nat} {l : List Char} {c : Char}
    (h : c ∈ removeEBAux fuel l) : c ∈ l := by
  induction fuel generalizing l with
  | zero => exact h
  | succ fuel ih =>
    match l with
    | [] => exact h
    | x :: rest =>
      rw [show removeEBAux (fuel + 1) (x :: rest) =
          (match ebMatch? (x :: rest) with
           | some r => removeEBAux fuel r
           | none => x :: removeEBAux fuel rest) from rfl] at h
      rcases hm : ebMatch? (x :: rest) with _ | r
      · rw [hm] at h
        rcases List.mem_cons.mp h with h' | h'
        · exact h' ▸ List.mem_cons_self x rest
        · exact List.mem_cons_of_mem x (ih h')
      · rw [hm] at h
        exact (ebMatch?_suffix hm).sublist.subset (ih h)

theorem mem_joinNl {L : List (List Char)} {c : Char} (h : c ∈ joinNl L) :
    c = '\n' ∨ ∃ l ∈ L, c ∈ l := by
  match L with
  | [] => simp [joinNl] at h
  | [l] => exact Or.inr ⟨l, List.mem_cons_self _ _, h⟩
  | l :: l' :: ls =>
    rw [show joinNl (l :: l' :: ls) = l ++ '\n' :: joinNl (l' :: ls) from rfl]
      at h
    rcases List.mem_append.mp h with h' | h'
    · exact Or.inr ⟨l, List.mem_cons_self _ _, h'⟩
    · rcases List.mem_cons.mp h' with h'' | h''
      · exact Or.inl h''
      · rcases mem_joinNl h'' with h3 | ⟨x, hx, hcx⟩
        · exact Or.inl h3
        · exact Or.inr ⟨x, List.mem_cons_of_mem l hx, hcx⟩

theorem tamilFilteredLines_no_tamil {t l' : List Char} {c : Char}
    (hl : l' ∈ tamilFilteredLines t) (hc : c ∈ l') : isTamil c = false := by
  unfold tamilFilteredLines at hl
  obtain ⟨l, _, hsome⟩ := List.mem_filterMap.mp hl
  by_cases hcond : 2 * tamilCount l < l.length
  · rw [if_pos hcond] at hsome
    simp only [Option.some.injEq] at hsome
    subst hsome
    have := (List.mem_filter.mp hc).2
    simpa using this
  · rw [if_neg hcond] at hsome
    exact absurd hsome (by simp)

theorem remove_tamil_no_tamil {s : List Char} {c : Char}
    (h : c ∈ remove_tamil_text s) : isTamil c = false := by
  unfold remove_tamil_text at h
  by_cases hs : s = []
  · rw [if_pos hs] at h
    rw [hs] at h
    exact absurd h (List.not_mem_nil c)
  · rw [if_neg hs] at h
    have h1 := mem_pyStrip h
    rcases collapseWsAux_mem h1 with h2 | h2
    · subst h2; decide
    · have h3 := removeEBAux_mem h2
      rcases collapseWsAux_mem h3 with h4 | h4
      · subst h4; decide
      · rcases mem_joinNl h4 with h5 | ⟨l', hl', hcl'⟩
        · subst h5; decide
        · exact tamilFilteredLines_no_tamil hl' hcl'

theorem remove_tamil_no_nl (s : List Char) :
    ('\n' : Char) ∉ remove_tamil_text s := by
  intro h
  unfold remove_tamil_text at h
  by_cases hs : s = []
  · rw [if_pos hs] at h
    rw [hs] at h
    exact List.not_mem_nil _ h
  · rw [if_neg hs] at h
    exact collapseWs_no_nl (mem_pyStrip h)

/-- C4.  The spec claims majority-foreign lines are kept with the foreign
characters stripped; the code drops any line with at least half foreign
characters and strips foreign characters only from the kept minority-foreign
lines.  Corrected statement: bracketed foreign spans are removed, lines with
at least half foreign characters are discarded outright, and consequently the
filter output never contains a foreign-script character. -/
theorem C4_script_filter_drops_majority_lines :
    (∀ (s : List Char) (c : Char), c ∈ remove_tamil_text s →
      isTamil c = false) ∧
    remove_tamil_text tamilMixed = ("a b").toList :=
  ⟨fun _ _ h => remove_tamil_no_tamil h, by decide⟩

/-- Witness for C4 applied at a minority-foreign input. -/
theorem C4_script_filter_drops_majority_lines_witness :
    'x' ∈ remove_tamil_text (("xஇy").toList) ∧ isTamil 'x' = false :=
  ⟨by decide,
    C4_script_filter_drops_majority_lines.1 (("xஇy").toList) 'x' (by decide)⟩

/-- Counterexample to C4 as stated: the majority-foreign line `"இஇa"` is
discarded entirely (output empty), not rewritten to `"a"`. -/
theorem C4_counterexample :
    remove_tamil_text tamilMajorityLine = [] ∧
    remove_tamil_text tamilMajorityLine ≠ ("a").toList := by
  decide

/-- C9.  After line-level filtering the script-run filter collapses every
whitespace run — newlines included — to a single space, so its output never
contains a line break. -/
theorem C9_filter_output_has_no_newline (s : List Char) :
    ('\n' : Char) ∉ remove_tamil_text s :=
  remove_tamil_no_nl s

/-- Witness for C9 at a concrete multi-line input. -/
theorem C9_filter_output_has_no_newline_witness :
    ('\n' : Char) ∉ remove_tamil_text (("## A\n- b\n- c").toList) :=
  C9_filter_output_has_no_newline (("## A\n- b\n- c").toList)

/-- Counterexample to C5 as stated: the assembler emits a header only for a
present, non-empty field (`if soap_note.get(...)`), so the Scenario C record
— empty subjective, absent assessment — produces no `## Subjective` and no
`## Assessment` section. -/
theorem C5_counterexample :
    hasSub (("## Subjective").toList)
      (build_soap_sections (some []) (some (("BP 120/80").toList)) none
        (some (("Paracetamol 500mg - TID").toList))) = false ∧
    hasSub (("## Assessment").toList)
      (build_soap_sections (some []) (some (("BP 120/80").toList)) none
        (some (("Paracetamol 500mg - TID").toList))) = false := by
  decide

/-- C5.  Amended statement: the assembler emits a `## <Header>` line only for
fields that are present and non-empty; Scenario C therefore yields exactly an
Objective section bulleted to `["BP 120/80"]` and a Plan section bulleted to
`["Paracetamol 500mg", "TID"]`. -/
theorem C5_assembler_skips_empty_fields :
    build_soap_sections (some []) (some (("BP 120/80").toList)) none
      (some (("Paracetamol 500mg - TID").toList)) = scenCRes ∧
    sectionBullets scenCRes (("Objective").toList) = [("BP 120/80").toList] ∧
    sectionBullets scenCRes (("Plan").toList) =
      [("Paracetamol 500mg").toList, ("TID").toList] := by
  decide

theorem cleanCandidate_no_trailing_period {s t : List Char}
    (h : cleanCandidate s = some t) : t ≠ [] ∧ t.getLast? ≠ some '.' := by
  unfold cleanCandidate at h
  by_cases he : pyRstripDot (pyStrip s) = []
  · rw [if_pos he] at h
    exact absurd h (by simp)
  · rw [if_neg he] at h
    simp only [Option.some.injEq] at h
    subst h
    refine ⟨he, ?_⟩
    intro hlast
    unfold pyRstripDot at hlast
    rw [List.getLast?_reverse] at hlast
    have := head?_dropWhile hlast
    simp at this

/-- C6.  The spec claims a single trailing period is stripped from each
candidate; the code's `rstrip('.')` strips the whole trailing run.
Corrected statement: every candidate produced by the separator split has its
entire run of trailing periods removed, so no surviving bullet item ends in a
period; `"Fever..."` becomes the bullet `"- Fever"`. -/
theorem C6_all_trailing_periods_stripped :
    (∀ text p t : List Char, p ∈ sepSplit text → cleanCandidate p = some t →
      t.getLast? ≠ some '.') ∧
    convert_to_bullet_points (("Fever...").toList) = ("- Fever").toList :=
  ⟨fun _ _ _ _ h => (cleanCandidate_no_trailing_period h).2, by decide⟩

/-- Witness for C6 at the candidate `"Fever..."`. -/
theorem C6_all_trailing_periods_stripped_witness :
    (("Fever...").toList ∈ sepSplit (("Fever...").toList)) ∧
    cleanCandidate (("Fever...").toList) = some (("Fever").toList) ∧
    ((("Fever").toList).getLast? ≠ some '.') :=
  ⟨by decide, by decide,
    C6_all_trailing_periods_stripped.1 (("Fever...").toList)
      (("Fever...").toList) (("Fever").toList) (by decide) (by decide)⟩

/-- Counterexample to C6 as stated: the candidate `"Fever..."` yields the
bullet `"- Fever"`, not `"- Fever.."` (all trailing periods are stripped,
not just the last one). -/
theorem C6_counterexample :
    convert_to_bullet_points (("Fever...").toList) = ("- Fever").toList ∧
    convert_to_bullet_points (("Fever...").toList) ≠
      ("- Fever..").toList := by
  decide

theorem hasDashWs_cons_of {x : Char} {l : List Char}
    (h : hasDashWs l = true) : hasDashWs (x :: l) = true := by
  match l with
  | [] => simp [hasDashWs] at h
  | b :: rest =>
    unfold hasDashWs
    by_cases hc : x = '-' ∧ pws b = true
    · rw [if_pos hc]
    · rw [if_neg hc]
      exact h

theorem hasDashWs_of_suffix {l s : List Char} (hs : s <:+ l)
    (h : hasDashWs s = true) : hasDashWs l = true := by
  obtain ⟨pre, rfl⟩ := hs
  induction pre with
  | nil => exact h
  | cons x xs ih => exact hasDashWs_cons_of ih

theorem hasDotDash_cons_of {x : Char} {l : List Char}
    (h : hasDotDash l = true) : hasDotDash (x :: l) = true := by
  unfold hasDotDash
  by_cases hc : x = '.' ∧ dashAfterWs l = true
  · rw [if_pos hc]
  · rw [if_neg hc]
    exact h

theorem hasDotDash_of_suffix {l s : List Char} (hs : s <:+ l)
    (h : hasDotDash s = true) : hasDotDash l = true := by
  obtain ⟨pre, rfl⟩ := hs
  induction pre with
  | nil => exact h
  | cons x xs ih => exact hasDotDash_cons_of ih

theorem tryMatch1_hasDashWs {l r : List Char} (h : tryMatch1 l = some r) :
    hasDashWs l = true := by
  unfold tryMatch1 at h
  split at h
  · exact absurd h (by simp)
  · rename_i c r1 heq
    split at h
    · rename_i hc
      split at h
      · exact absurd h (by simp)
      · rename_i d r2
        split at h
        · rename_i hd
          subst hc
          have hsuf : ('-' :: d :: r2 : List Char) <:+ l := by
            rw [← heq]
            exact List.dropWhile_suffix pws
          refine hasDashWs_of_suffix hsuf ?_
          unfold hasDashWs
          rw [if_pos ⟨rfl, hd⟩]
        · exact absurd h (by simp)
    · exact absurd h (by simp)

theorem tryMatch2_hasDotDash {l r : List Char} (h : tryMatch2 l = some r) :
    hasDotDash l = true := by
  unfold tryMatch2 at h
  split at h
  · exact absurd h (by simp)
  · rename_i c r1 heq
    split at h
    · rename_i hc
      split at h
      · exact absurd h (by simp)
      · rename_i d r2 heq2
        split at h
        · rename_i hd
          subst hc
          subst hd
          have hda : dashAfterWs r1 = true := by
            unfold dashAfterWs
            rw [heq2]
            rfl
          have hsuf : ('.' :: r1 : List Char) <:+ l := by
            rw [← heq]
            exact List.dropWhile_suffix pws
          refine hasDotDash_of_suffix hsuf ?_
          unfold hasDotDash
          rw [if_pos ⟨rfl, hda⟩]
        · exact absurd h (by simp)
    · exact absurd h (by simp)

theorem sepMatch_none_of {l : List Char} (h1 : hasDashWs l = false)
    (h2 : hasDotDash l = false) : sepMatch l = none := by
  rcases hm : tryMatch1 l with _ | r
  · rcases hm2 : tryMatch2 l with _ | r2
    · unfold sepMatch
      rw [hm]
      exact hm2
    · exact absurd (tryMatch2_hasDotDash hm2) (by simp [h2])
  · exact absurd (tryMatch1_hasDashWs hm) (by simp [h1])

theorem hasDashWs_tail {x : Char} {l : List Char}
    (h : hasDashWs (x :: l) = false) : hasDashWs l = false := by
  match l with
  | [] => rfl
  | b :: rest =>
    unfold hasDashWs at h
    by_cases hc : x = '-' ∧ pws b = true
    · rw [if_pos hc] at h
      exact absurd h (by simp)
    · rwa [if_neg hc] at h

theorem hasDotDash_tail {x : Char} {l : List Char}
    (h : hasDotDash (x :: l) = false) : hasDotDash l = false := by
  unfold hasDotDash at h
  by_cases hc : x = '.' ∧ dashAfterWs l = true
  · rw [if_pos hc] at h
    exact absurd h (by simp)
  · rwa [if_neg hc] at h

theorem sepSplitAux_succ_cons (fuel : Nat) (c : Char) (rest acc : List Char) :
    sepSplitAux (fuel + 1) (c :: rest) acc =
      (match sepMatch (c :: rest) with
       | some r => acc.reverse :: sepSplitAux fuel r []
       | none => sepSplitAux fuel rest (c :: acc)) := rfl

theorem sepSplitAux_no_sep (fuel : Nat) : ∀ l acc : List Char,
    l.length ≤ fuel → hasDashWs l = false → hasDotDash l = false →
    sepSplitAux fuel l acc = [acc.reverse ++ l] := by
  induction fuel with
  | zero =>
    intro l acc hlen _ _
    rfl
  | succ fuel ih =>
    intro l acc hlen h1 h2
    match l with
    | [] =>
      rw [show sepSplitAux (fuel + 1) [] acc = [acc.reverse] from rfl]
      simp
    | c :: rest =>
      rw [sepSplitAux_succ_cons, sepMatch_none_of h1 h2]
      show sepSplitAux fuel rest (c :: acc) = [acc.reverse ++ c :: rest]
      rw [ih rest (c :: acc) (by simpa using hlen) (hasDashWs_tail h1)
        (hasDotDash_tail h2)]
      simp

/-- C7.  The spec claims the separator fires only on a hyphen with whitespace
on both sides or the period-hyphen compound; `\s*-\s+` in fact also fires on
a hyphen with whitespace only after it.  Corrected statement: the split never
fires when no hyphen of the text is followed by whitespace and no hyphen is
preceded (over optional whitespace) by a period — in particular
`"post-op care advised"` stays one bullet. -/
theorem C7_no_separator_without_trailing_ws_or_period (text : List Char)
    (h1 : hasDashWs text = false) (h2 : hasDotDash text = false) :
    sepSplit text = [text] := by
  have := sepSplitAux_no_sep text.length text [] le_rfl h1 h2
  simpa [sepSplit] using this

/-- Witness for C7 at the Scenario D content. -/
theorem C7_no_separator_without_trailing_ws_or_period_witness :
    hasDashWs postOp = false ∧ hasDotDash postOp = false ∧
    sepSplit postOp = [postOp] ∧
    convert_to_bullet_points postOp = ("- post-op care advised").toList :=
  ⟨by decide, by decide,
    C7_no_separator_without_trailing_ws_or_period postOp (by decide)
      (by decide), by decide⟩

/-- Counterexample to C7 as stated: in `"abc- def"` the hyphen has no
whitespace before it and no preceding period, yet the split fires on it
(`\s*-\s+` only requires whitespace after the hyphen). -/
theorem C7_counterexample :
    convert_to_bullet_points (("abc- def").toList) =
      ("- abc\n- def").toList ∧
    convert_to_bullet_points (("abc- def").toList) ≠
      ("- abc- def").toList := by
  decide

theorem hasSub_infix_iff {pat l : List Char} :
    hasSub pat l = true ↔ pat <:+: l := by
  induction l with
  | nil => simp [hasSub, List.isEmpty_iff, List.infix_nil]
  | cons c rest ih =>
    simp only [hasSub, Bool.or_eq_true, List.isPrefixOf_iff_prefix, ih,
      List.infix_cons_iff]

/-- C8.  The flatten detector classifies a string as flattened exactly when
it contains the `##` marker and no line break; in particular any string
without the marker is never flattened. -/
theorem C8_flatten_detector_iff (md : List Char) :
    is_flattened md = true ↔ (hashStr <:+: md ∧ ('\n' : Char) ∉ md) := by
  unfold is_flattened
  rw [Bool.and_eq_true, hasSub_infix_iff]
  constructor
  · rintro ⟨h1, h2⟩
    refine ⟨h1, fun hm => ?_⟩
    obtain ⟨s, t, rfl⟩ := List.append_of_mem hm
    have hinf : nlStr <:+: s ++ '\n' :: t := ⟨s, t, by simp [nlStr]⟩
    rw [← hasSub_infix_iff] at hinf
    simp [hinf] at h2
  · rintro ⟨h1, h2⟩
    refine ⟨h1, ?_⟩
    cases hns : hasSub nlStr md
    · simp
    · have : ('\n' : Char) ∈ md :=
        (hasSub_infix_iff.mp hns).sublist.subset (by simp [nlStr])
      exact absurd this h2

/-- Witness for C8 at a marker-bearing single-line string. -/
theorem C8_flatten_detector_iff_witness :
    is_flattened (("## a b").toList) = true :=
  (C8_flatten_detector_iff (("## a b").toList)).mpr
    ⟨⟨[], (" a b").toList, by decide⟩, by decide⟩

/-- C10.  When flushing bullets, `_add_bullet_list` deletes every occurrence
of the literal word `bullet` from each item before rendering, so an item
containing that word renders differently from its canonical text, while items
without it pass through unchanged. -/
theorem C10_renderer_deletes_bullet_word :
    add_bullet_list_texts
        [("Use bullet points").toList, ("Rest advised").toList] =
      [("• Use  points").toList, ("• Rest advised").toList] ∧
    ("• Use  points").toList ≠ ("• Use bullet points").toList := by
  decide

end Medscribe
